import Mathlib

/-
Verification of the scope-based IoC container of mihsamusev/otus_patterns_hw5
(src/ioc.py) and of the macro command of src/command.py.

Embedding conventions:
* A Python `Scope` object is a node of a rose tree.  Python references to scope
  objects are modelled as paths (`List Nat`: child indices) into the tree held
  by `ThreadData.root_scope`.  The tree only grows (children are appended and
  never removed, names never change), so a path denotes the same object forever,
  which makes paths a faithful model of object references.  The Python `parent`
  back-reference of the scope at path `p` is the node at `p.dropLast` (at `none`
  for the root), so it is not stored in the node.
* Python factories (`Callable`) are modelled as functions `List PyValue → PyValue`.
* `ThreadData` in ioc.py is accessed through class attributes only (the
  `threading.local` base is never instantiated), hence there is exactly one
  `ThreadData` record for the whole process in this embedding.
* Exceptions are modelled by the `PyErr` type; a command that can mutate state
  before raising returns the state at raise time together with the error.
* `PyErr.badRef` marks branches that a Python execution cannot reach (an object
  reference in Python cannot dangle, while a path into a tree value can in
  principle be stale); these branches are never taken in states produced by the
  modelled API.
-/

/-- PyValue models the dynamically typed values (`Any`) that factories receive
and return; only a few representative shapes are needed. -/
inductive PyValue where
  | vnone
  | vnat (n : Nat)
  | vstr (s : String)
  | vscopeRef (path : List Nat)
deriving DecidableEq

/-- Factory models a registered strategy: a `Callable` taking `*args` and
returning an arbitrary value (ioc.py registry values). -/
def Factory : Type := List PyValue → PyValue

/-- PyErr models the exceptions of ioc.py and command.py:
`duplicateKey key` is the `KeyError` raised by `IoCRegisterCommand.execute`
(its message names the key), `scopeNotFound` is `ScopeNotFoundException`,
`scopeNotSet` is `ScopeNotSetException`, `unresolvedKey key args` is
`IoCNotFoundException` (its message names the key and the arguments),
`attrError` is the `AttributeError` raised by an attribute access on `None`,
`commandException cause` is `CommandException(e)` from command.py, and
`badRef` marks unreachable stale-path branches of the embedding. -/
inductive PyErr where
  | duplicateKey (key : String)
  | scopeNotFound
  | scopeNotSet
  | unresolvedKey (key : String) (args : List PyValue)
  | attrError
  | commandException (cause : PyErr)
  | badRef
deriving DecidableEq

/-- Scope mirrors the `Scope` dataclass of ioc.py: `name`, `setter_scope`
(the restore target, a reference modelled as a path), `children` (owned,
in insertion order) and `registry` (a dict modelled as an insertion-ordered
association list).  The `parent` field is represented by the tree structure
itself (the parent of the node at path `p` is the node at `p.dropLast`). -/
inductive Scope where
  | mk (name : String) (setter_scope : Option (List Nat))
       (children : List Scope) (registry : List (String × Factory))

/-- Scope.name accessor. -/
def Scope.name : Scope → String
  | .mk n _ _ _ => n

/-- Scope.setter_scope accessor. -/
def Scope.setter_scope : Scope → Option (List Nat)
  | .mk _ s _ _ => s

/-- Scope.children accessor. -/
def Scope.children : Scope → List Scope
  | .mk _ _ cs _ => cs

/-- Scope.registry accessor. -/
def Scope.registry : Scope → List (String × Factory)
  | .mk _ _ _ r => r

/-- nth returns the i-th element of a list of scopes (list indexing). -/
def nth : List Scope → Nat → Option Scope
  | [], _ => none
  | c :: _, 0 => some c
  | _ :: cs, n + 1 => nth cs n

/-- setNth replaces the i-th element of a list of scopes. -/
def setNth : List Scope → Nat → Scope → List Scope
  | [], _, _ => []
  | _ :: cs, 0, c => c :: cs
  | d :: cs, n + 1, c => d :: setNth cs n c

/-- getNode dereferences a path: the scope object the path refers to. -/
def getNode : Scope → List Nat → Option Scope
  | t, [] => some t
  | .mk _ _ cs _, i :: p =>
    match nth cs i with
    | some c => getNode c p
    | none => none

/-- modifyNode applies `f` to the scope object a path refers to, rebuilding the
tree around it (the functional rendering of an in-place mutation of the
referenced Python object). -/
def modifyNode (f : Scope → Scope) : Scope → List Nat → Option Scope
  | t, [] => some (f t)
  | .mk n s cs r, i :: p =>
    match nth cs i with
    | some c => (modifyNode f c p).map (fun c2 => Scope.mk n s (setNth cs i c2) r)
    | none => none

mutual

/-- scopeSize counts the nodes of a scope tree. -/
def scopeSize : Scope → Nat
  | .mk _ _ cs _ => 1 + forestSize cs

/-- forestSize counts the nodes of a list of scope trees. -/
def forestSize : List Scope → Nat
  | [] => 0
  | c :: cs => scopeSize c + forestSize cs

end

/-- queueSize sums the sizes of the subtrees held in a BFS visit queue. -/
def queueSize : List (List Nat × Scope) → Nat
  | [] => 0
  | (_, t) :: rest => scopeSize t + queueSize rest

/-- childEntries pairs the children of the scope at path `p` (starting at child
index `i`) with their own paths, in insertion order; this is what
`visit_queue.extend(scope.children)` appends in `FindScopeCommand.execute`. -/
def childEntries (p : List Nat) : Nat → List Scope → List (List Nat × Scope)
  | _, [] => []
  | i, c :: cs => (p ++ [i], c) :: childEntries p (i + 1) cs

/-- lexLt is the strict lexicographic order on paths (used to state the
left-to-right tie-break of breadth-first search). -/
def lexLt : List Nat → List Nat → Bool
  | [], [] => false
  | [], _ :: _ => true
  | _ :: _, [] => false
  | a :: as, b :: bs => Nat.blt a b || (a == b && lexLt as bs)

/-- slexLt is the strict shortlex order on paths: shorter paths first, the
lexicographic order among paths of equal length.  Breadth-first search over a
tree whose children are expanded in insertion order visits paths in exactly
this order (shallowest first, leftmost among equal depths). -/
def slexLt (p q : List Nat) : Bool :=
  Nat.blt p.length q.length || (p.length == q.length && lexLt p q)

/-- slexLe is the reflexive closure of the shortlex order. -/
def slexLe (p q : List Nat) : Bool :=
  slexLt p q || p == q

/-- ThreadData mirrors the process state held in the class attributes of
`ThreadData` in ioc.py.  The Python class subclasses `threading.local` but is
never instantiated: every access in ioc.py reads or writes class attributes
(`ThreadData.root_scope`, `ThreadData.current_scope`), which are ordinary
shared attributes of the class object, so there is exactly one such record for
the whole process, not one per thread. -/
structure ThreadData where
  root_scope : Option Scope
  current_scope : Option (List Nat)

/-- bfsAux is the loop of `FindScopeCommand.execute`: pop the head of the visit
queue, return its path if its name matches, otherwise append its children to
the queue.  The Python `while` loop performs exactly one iteration per node it
ever enqueues; the `fuel` argument (instantiated with the total tree size,
an exact bound on that count) renders the recursion structural. -/
def bfsAux (target : String) : Nat → List (List Nat × Scope) → Option (List Nat)
  | _, [] => none
  | 0, _ :: _ => none
  | fuel + 1, (p, t) :: rest =>
    if t.name == target then some p
    else bfsAux target fuel (rest ++ childEntries p 0 t.children)

/-- FindScopeCommand_execute models `FindScopeCommand.execute`: breadth-first
search through the tree under `ThreadData.root_scope`, starting from the root;
raises `ScopeNotFoundException` when the queue is exhausted.  A `None` root
makes the first `scope.name` access raise `AttributeError`. -/
def FindScopeCommand_execute (target_name : String) (st : ThreadData) :
    Except PyErr (List Nat) :=
  match st.root_scope with
  | none => .error .attrError
  | some root =>
    match bfsAux target_name (scopeSize root) [([], root)] with
    | some p => .ok p
    | none => .error .scopeNotFound

/-- SetCurrentScopeCommand_execute models `SetCurrentScopeCommand.execute`:
find the scope with the given name and make it `ThreadData.current_scope`,
returning it.  On a find failure the exception propagates with the state
untouched. -/
def SetCurrentScopeCommand_execute (scope_name : String) (st : ThreadData) :
    ThreadData × Except PyErr (List Nat) :=
  match FindScopeCommand_execute scope_name st with
  | .error e => (st, .error e)
  | .ok p => ({ st with current_scope := some p }, .ok p)

/-- containsKey models the Python `key in registry` membership test on a dict. -/
def containsKey (reg : List (String × Factory)) (key : String) : Bool :=
  reg.any (fun kv => kv.1 == key)

/-- lookupFactory models `registry.get(key)` on a dict. -/
def lookupFactory : List (String × Factory) → String → Option Factory
  | [], _ => none
  | (k, f) :: rest, key => if k == key then some f else lookupFactory rest key

/-- IoCRegisterCommand_execute models `IoCRegisterCommand.execute`: read the
active scope, raise `KeyError` when the key is already in its own registry
(ancestors are not consulted), otherwise insert the strategy.  A `None`
current scope makes `active_scope.registry` raise `AttributeError`.  The raise
happens before the insertion, so the state is returned unchanged on failure. -/
def IoCRegisterCommand_execute (key : String) (strategy : Factory)
    (st : ThreadData) : ThreadData × Option PyErr :=
  match st.current_scope with
  | none => (st, some .attrError)
  | some p =>
    match st.root_scope with
    | none => (st, some .badRef)
    | some root =>
      match getNode root p with
      | none => (st, some .badRef)
      | some nd =>
        if containsKey nd.registry key then (st, some (.duplicateKey key))
        else
          match modifyNode
              (fun n => Scope.mk n.name n.setter_scope n.children
                (n.registry ++ [(key, strategy)])) root p with
          | none => (st, some .badRef)
          | some root2 => ({ st with root_scope := some root2 }, none)

/-- NewScopeCommand_execute models `NewScopeCommand`: `__post_init__` replaces
a falsy (`None` or empty) scope name with a freshly generated unique token
(`str(uuid.uuid4())`, supplied here as the oracle `generated_name`), and
`execute` finds the parent by name, creates
`Scope(name, parent=parent_scope, setter_scope=ThreadData.current_scope)`
and appends it to the parent's children, returning the new scope. -/
def NewScopeCommand_execute (parent_name : String) (scope_name : Option String)
    (generated_name : String) (st : ThreadData) :
    ThreadData × Except PyErr (List Nat) :=
  let chosen : String :=
    match scope_name with
    | none => generated_name
    | some s => if s == "" then generated_name else s
  match FindScopeCommand_execute parent_name st with
  | .error e => (st, .error e)
  | .ok pp =>
    match st.root_scope with
    | none => (st, .error .badRef)
    | some root =>
      match getNode root pp with
      | none => (st, .error .badRef)
      | some parentNd =>
        match modifyNode
            (fun n => Scope.mk n.name n.setter_scope
              (n.children ++ [Scope.mk chosen st.current_scope [] []])
              n.registry) root pp with
        | none => (st, .error .badRef)
        | some root2 =>
          ({ st with root_scope := some root2 },
           .ok (pp ++ [parentNd.children.length]))

/-- IoC_init models `IoC.__init__`: build a root scope named `root` carrying
the default registry and point both `ThreadData.root_scope` and
`ThreadData.current_scope` at it.  The registry is a parameter because the
factories of `DEFAULT_SCOPE_REGISTRY` close over the container itself; the
claims under verification never resolve those built-in keys. -/
def IoC_init (default_registry : List (String × Factory)) : ThreadData :=
  { root_scope := some (Scope.mk "root" none [] default_registry),
    current_scope := some [] }

/-- parentChain walks `scope → scope.parent → … → root` (the iterator protocol
of `Scope.__iter__`/`Scope.__next__`), in path form: a path followed by all its
proper prefixes down to `[]`.  Each parent step shortens the path by one, so
the fuel `p.length` makes the recursion structural and exact. -/
def parentChain : Nat → List Nat → List (List Nat)
  | 0, _ => [[]]
  | fuel + 1, p => p :: parentChain fuel p.dropLast

/-- chainPaths lists the scope chain from a scope up to the root, nearest
first, as produced by iterating the scope object in `IoC.resolve`. -/
def chainPaths (p : List Nat) : List (List Nat) :=
  parentChain p.length p

/-- regAt reads `scope.registry.get(key)` for the scope at a given path. -/
def regAt (root : Scope) (key : String) (p : List Nat) : Option Factory :=
  match getNode root p with
  | some nd => lookupFactory nd.registry key
  | none => none

/-- resolveChain is the loop body of `IoC.resolve`: try each scope of the
chain in order and keep the first registry hit. -/
def resolveChain (root : Scope) (key : String) : List (List Nat) → Option Factory
  | [] => none
  | p :: rest =>
    match regAt root key p with
    | some f => some f
    | none => resolveChain root key rest

/-- IoC_resolve models `IoC.resolve`: fail with `ScopeNotSetException` when no
current scope is set (`if not ThreadData.current_scope`; a `Scope` dataclass
instance is always truthy, so this is exactly the `None` test), walk the chain
from the current scope towards the root, invoke the first factory found with
the given arguments and return its result as-is, and otherwise fail with
`IoCNotFoundException` naming the key and the arguments. -/
def IoC_resolve (st : ThreadData) (key : String) (args : List PyValue) :
    Except PyErr PyValue :=
  match st.current_scope with
  | none => .error .scopeNotSet
  | some p =>
    match st.root_scope with
    | none => .error .badRef
    | some root =>
      match resolveChain root key (chainPaths p) with
      | some f => .ok (f args)
      | none => .error (.unresolvedKey key args)

/-- Scope_eq models `Scope.__eq__`: two scope objects compare equal exactly
when their names are equal, all other fields ignored. -/
def Scope_eq (a b : Scope) : Bool :=
  a.name == b.name

/-- Scope_enter models `Scope.__enter__`: read the current scope, and unless
`self == current` (name equality via `Scope.__eq__`; a `None` current makes
`other.name` raise `AttributeError`), store the current scope in
`self.setter_scope` and switch to `self` via
`SetCurrentScopeCommand(self.name)` — a lookup by name.  Returns `self`. -/
def Scope_enter (selfPath : List Nat) (st : ThreadData) :
    ThreadData × Except PyErr (List Nat) :=
  match st.current_scope with
  | none => (st, .error .attrError)
  | some curP =>
    match st.root_scope with
    | none => (st, .error .badRef)
    | some root =>
      match getNode root selfPath, getNode root curP with
      | some selfNd, some curNd =>
        if Scope_eq selfNd curNd then (st, .ok selfPath)
        else
          match modifyNode
              (fun n => Scope.mk n.name (some curP) n.children n.registry)
              root selfPath with
          | none => (st, .error .badRef)
          | some root1 =>
            match SetCurrentScopeCommand_execute selfNd.name
                { st with root_scope := some root1 } with
            | (st2, .ok _) => (st2, .ok selfPath)
            | (st2, .error e) => (st2, .error e)
      | _, _ => (st, .error .badRef)

/-- Scope_exit models `Scope.__exit__`: switch back via
`SetCurrentScopeCommand(self.setter_scope.name)` — again a lookup by name.
A `None` `setter_scope` makes the `.name` access raise `AttributeError`.
Nothing is written to `setter_scope` here. -/
def Scope_exit (selfPath : List Nat) (st : ThreadData) :
    ThreadData × Option PyErr :=
  match st.root_scope with
  | none => (st, some .badRef)
  | some root =>
    match getNode root selfPath with
    | none => (st, some .badRef)
    | some selfNd =>
      match selfNd.setter_scope with
      | none => (st, some .attrError)
      | some sp =>
        match getNode root sp with
        | none => (st, some .badRef)
        | some setNd =>
          match SetCurrentScopeCommand_execute setNd.name st with
          | (st2, .ok _) => (st2, none)
          | (st2, .error e) => (st2, some e)

/-- withScope models the Python `with` statement on a scope object:
`__enter__`, then the body, then `__exit__` unconditionally (also when the
body raised); a body exception propagates after the exit unless the exit
itself raises, in which case the exit's exception replaces it.  An exception
in `__enter__` skips body and exit. -/
def withScope (selfPath : List Nat)
    (body : ThreadData → ThreadData × Option PyErr) (st : ThreadData) :
    ThreadData × Option PyErr :=
  match Scope_enter selfPath st with
  | (st1, .error e) => (st1, some e)
  | (st1, .ok _) =>
    let r := body st1
    match Scope_exit selfPath r.1 with
    | (st3, none) => (st3, r.2)
    | (st3, some e2) => (st3, some e2)

/-- MacroCommand_execute models `MacroCommand.execute` from command.py: run the
sub-commands in order; when one raises, wrap the cause in `CommandException`
and re-raise immediately (later sub-commands never run, earlier effects stay).
The sub-commands are arbitrary objects with an `execute` method acting on any
state type. -/
def MacroCommand_execute {σ : Type} (commands : List (σ → σ × Option PyErr))
    (st : σ) : σ × Option PyErr :=
  match commands with
  | [] => (st, none)
  | c :: rest =>
    match c st with
    | (st1, none) => MacroCommand_execute rest st1
    | (st1, some e) => (st1, some (.commandException e))

mutual

/-- scopeNames lists the names of all scopes of a tree. -/
def scopeNames : Scope → List String
  | .mk n _ cs _ => n :: forestNames cs

/-- forestNames lists the names of all scopes of a forest. -/
def forestNames : List Scope → List String
  | [] => []
  | c :: cs => scopeNames c ++ forestNames cs

end

/-- fW is a sample factory (a strategy returning a constant). -/
def fW : Factory := fun _ => PyValue.vnat 0

/-- fW2 is a second sample factory. -/
def fW2 : Factory := fun _ => PyValue.vnat 1

/-- stShadow is a concrete container state: the root scope registers key `x`
with a factory returning 42 and its child `c` shadows `x` with a factory
returning 7; the child is the active scope. -/
def stShadow : ThreadData :=
  { root_scope := some (Scope.mk "root" none
      [Scope.mk "c" (some []) [] [("x", fun _ => PyValue.vnat 7)]]
      [("x", fun _ => PyValue.vnat 42)]),
    current_scope := some [0] }

/-- stAfterK is the state reached from a fresh container after registering
key `k` in the root scope. -/
def stAfterK : ThreadData :=
  (IoCRegisterCommand_execute "k" fW (IoC_init [])).1

/-- stChildK is a concrete state where the root scope already holds key `k`
and its (empty-registry) child `c` is the active scope. -/
def stChildK : ThreadData :=
  { root_scope := some (Scope.mk "root" none
      [Scope.mk "c" (some []) [] []] [("k", fW)]),
    current_scope := some [0] }

/-- treeRC is a two-node tree: root scope `root` with one child `c` whose
restore target is the root. -/
def treeRC : Scope :=
  Scope.mk "root" none [Scope.mk "c" (some []) [] []] []

/-- stEnterW is treeRC with the root active (about to enter `c`). -/
def stEnterW : ThreadData :=
  { root_scope := some treeRC, current_scope := some [] }

/-- stAlready is treeRC with the child `c` already active. -/
def stAlready : ThreadData :=
  { root_scope := some treeRC, current_scope := some [0] }

/-- idBody is a scoped block body that does nothing and raises nothing. -/
def idBody : ThreadData → ThreadData × Option PyErr := fun s => (s, none)

/-- stC6a is the state after one execution unit creates a child scope named
`child` under the root of a fresh container. -/
def stC6a : ThreadData :=
  (NewScopeCommand_execute "root" (some "child") "g" (IoC_init [])).1

/-- stC6b is the state after an execution unit then switches the current scope
to `child`. -/
def stC6b : ThreadData :=
  (SetCurrentScopeCommand_execute "child" stC6a).1

/-- tC5 is a tree with duplicate scope names at several depths: root `r` with
children `a` (which has a grandchild named `x`), `x` and `x` again. -/
def tC5 : Scope :=
  Scope.mk "r" none
    [Scope.mk "a" none [Scope.mk "x" none [] []] [],
     Scope.mk "x" none [] [],
     Scope.mk "x" none [] []] []

/-- stFindW is tC5 installed as the tree of the execution context. -/
def stFindW : ThreadData :=
  { root_scope := some tC5, current_scope := some [] }

/-- stC10 holds two distinct scope objects with the same name `x` but
different registries and restore targets; the first is active. -/
def stC10 : ThreadData :=
  { root_scope := some (Scope.mk "r" none
      [Scope.mk "x" (some []) [] [("a", fW)],
       Scope.mk "x" (some []) [] []] []),
    current_scope := some [0] }

/-- treeRAB is a tree with unique names: root scope `root` with two children
`A` and `B` (restore targets initially the root). -/
def treeRAB : Scope :=
  Scope.mk "root" none
    [Scope.mk "A" (some []) [] [], Scope.mk "B" (some []) [] []] []

/-- stActiveA is treeRAB with the child `A` active. -/
def stActiveA : ThreadData :=
  { root_scope := some treeRAB, current_scope := some [0] }

/-- bodyReenter is a scoped block body that switches the current scope to the
root and then re-enters the scope at path `[1]` (the handle of the enclosing
block), overwriting that scope's restore target. -/
def bodyReenter : ThreadData → ThreadData × Option PyErr :=
  fun s => ((Scope_enter [1] (SetCurrentScopeCommand_execute "root" s).1).1, none)

/-- treeDup is a tree with a duplicate name at two depths: root `r` with
children `dup` and `other`, where `other` has a child also named `dup`. -/
def treeDup : Scope :=
  Scope.mk "r" none
    [Scope.mk "dup" none [] [],
     Scope.mk "other" none [Scope.mk "dup" none [] []] []] []

/-- stDeepDup is treeDup with the deeper `dup` (under `other`) active. -/
def stDeepDup : ThreadData :=
  { root_scope := some treeDup, current_scope := some [1, 0] }

/-- cmdInc is a sample sub-command on a counter state: increment, no failure. -/
def cmdInc : Nat → Nat × Option PyErr := fun n => (n + 1, none)

/-- cmdFail is a sample sub-command that raises without changing the state. -/
def cmdFail : Nat → Nat × Option PyErr := fun n => (n, some .scopeNotSet)

theorem nth_append_length (cs : List Scope) (c : Scope) :
    nth (cs ++ [c]) cs.length = some c := by
  induction cs with
  | nil => rfl
  | cons d cs ih => simpa [nth] using ih

theorem nth_setNth_self {cs : List Scope} {i : Nat} {c : Scope}
    (h : nth cs i = some c) (c' : Scope) :
    nth (setNth cs i c') i = some c' := by
  induction cs generalizing i with
  | nil => simp [nth] at h
  | cons d cs ih =>
    cases i with
    | zero => rfl
    | succ j => simpa [nth, setNth] using ih (by simpa [nth] using h)

theorem getNode_append (p q : List Nat) (t : Scope) :
    getNode t (p ++ q) = (getNode t p).bind (fun s => getNode s q) := by
  induction p generalizing t with
  | nil => simp [getNode]
  | cons i p ih =>
    cases t with
    | mk n s cs r =>
      simp only [List.cons_append, getNode]
      cases h : nth cs i with
      | none => rfl
      | some c => exact ih c

theorem modifyNode_spec (f : Scope → Scope) {t : Scope} {p : List Nat}
    {nd : Scope} (h : getNode t p = some nd) :
    ∃ t2, modifyNode f t p = some t2 ∧ getNode t2 p = some (f nd) := by
  induction p generalizing t with
  | nil =>
    have ht : t = nd := by simpa [getNode] using h
    subst ht
    exact ⟨f t, by simp [modifyNode], by simp [getNode]⟩
  | cons i p ih =>
    cases t with
    | mk n s cs r =>
      simp only [getNode] at h
      cases hc : nth cs i with
      | none => simp [hc] at h
      | some c =>
        rw [hc] at h
        obtain ⟨c2, hmod, hget⟩ := ih h
        refine ⟨Scope.mk n s (setNth cs i c2) r, ?_, ?_⟩
        · simp [modifyNode, hc, hmod]
        · simp [getNode, nth_setNth_self hc, hget]

theorem SetCurrentScopeCommand_preserves_root (n : String) (st : ThreadData) :
    ((SetCurrentScopeCommand_execute n st).1).root_scope = st.root_scope := by
  unfold SetCurrentScopeCommand_execute
  cases FindScopeCommand_execute n st <;> rfl

theorem resolveChain_append_none {root : Scope} {key : String}
    {pre : List (List Nat)} (h : ∀ q ∈ pre, regAt root key q = none)
    (rest : List (List Nat)) :
    resolveChain root key (pre ++ rest) = resolveChain root key rest := by
  induction pre with
  | nil => rfl
  | cons a pre ih =>
    simp only [List.cons_append, resolveChain, h a (by simp)]
    exact ih (fun q hq => h q (by simp [hq]))

theorem resolveChain_eq_none {root : Scope} {key : String}
    {l : List (List Nat)} (h : ∀ q ∈ l, regAt root key q = none) :
    resolveChain root key l = none := by
  induction l with
  | nil => rfl
  | cons a l ih =>
    simp only [resolveChain, h a (by simp)]
    exact ih (fun q hq => h q (by simp [hq]))

/-- C1: with a non-null current scope, `IoC.resolve` walks the chain from the
current scope towards the root, and for a key registered somewhere in that
chain it invokes the factory of the nearest scope holding the key, passes the
arguments, and returns the factory's result as-is; the scopes farther than the
first hit (`post`) are unconstrained and never consulted. -/
theorem IoC_resolve_nearest_scope_wins
    (st : ThreadData) (p pi : List Nat) (root : Scope) (key : String)
    (args : List PyValue) (pre post : List (List Nat)) (f : Factory)
    (hcur : st.current_scope = some p)
    (hroot : st.root_scope = some root)
    (hchain : chainPaths p = pre ++ pi :: post)
    (hpre : pre.all (fun q => (regAt root key q).isNone) = true)
    (hhit : regAt root key pi = some f) :
    IoC_resolve st key args = .ok (f args) := by
  have hpre' : ∀ q ∈ pre, regAt root key q = none := fun q hq =>
    Option.isNone_iff_eq_none.mp (List.all_eq_true.mp hpre q hq)
  simp only [IoC_resolve, hcur, hroot, hchain,
    resolveChain_append_none hpre', resolveChain, hhit]

theorem IoC_resolve_nearest_scope_wins_witness :
    IoC_resolve stShadow "x" [] = .ok (PyValue.vnat 7) :=
  IoC_resolve_nearest_scope_wins stShadow [0] [0] _ "x" [] [] [[]]
    (fun _ => PyValue.vnat 7) rfl rfl rfl rfl rfl

/-- C4: when no scope in the chain from the current scope up to the root has
the key in its local registry, `IoC.resolve` fails with
`IoCNotFoundException`, whose payload names the key and the supplied
arguments. -/
theorem IoC_resolve_unresolved_key
    (st : ThreadData) (p : List Nat) (root : Scope) (key : String)
    (args : List PyValue)
    (hcur : st.current_scope = some p)
    (hroot : st.root_scope = some root)
    (hnone : (chainPaths p).all (fun q => (regAt root key q).isNone) = true) :
    IoC_resolve st key args = .error (.unresolvedKey key args) := by
  have hnone' : ∀ q ∈ chainPaths p, regAt root key q = none := fun q hq =>
    Option.isNone_iff_eq_none.mp (List.all_eq_true.mp hnone q hq)
  simp only [IoC_resolve, hcur, hroot, resolveChain_eq_none hnone']

theorem IoC_resolve_unresolved_key_witness :
    IoC_resolve stShadow "zz" [PyValue.vnat 1] =
      .error (.unresolvedKey "zz" [PyValue.vnat 1]) :=
  IoC_resolve_unresolved_key stShadow [0] _ "zz" [PyValue.vnat 1] rfl rfl rfl

/-- C2: registering a key twice with the same scope active fails with the
duplicate-key error on the second call and leaves the whole state (hence the
scope's registry entry for the key) unchanged; and registration succeeds
whenever the key is absent from the active scope's own registry, regardless of
what any ancestor registers (shadowing a parent's key from a child scope
therefore succeeds). -/
theorem IoCRegisterCommand_duplicate_and_shadowing :
    (∀ (key : String) (f g : Factory) (st st1 : ThreadData),
      IoCRegisterCommand_execute key f st = (st1, none) →
      IoCRegisterCommand_execute key g st1 =
        (st1, some (.duplicateKey key))) ∧
    (∀ (key : String) (g : Factory) (st : ThreadData) (p : List Nat)
      (root nd : Scope),
      st.current_scope = some p →
      st.root_scope = some root →
      getNode root p = some nd →
      containsKey nd.registry key = false →
      (IoCRegisterCommand_execute key g st).2 = none) := by
  constructor
  · intro key f g st st1 hsucc
    unfold IoCRegisterCommand_execute at hsucc ⊢
    split at hsucc
    · simp at hsucc
    · rename_i p hp
      split at hsucc
      · simp at hsucc
      · rename_i root hr
        split at hsucc
        · simp at hsucc
        · rename_i nd hnd
          split at hsucc
          · simp at hsucc
          · rename_i hkey
            split at hsucc
            · simp at hsucc
            · rename_i root2 hmod
              obtain ⟨hst1, -⟩ := Prod.mk.injEq .. ▸ hsucc
              obtain ⟨t2, hmod', hget'⟩ :=
                modifyNode_spec (fun n => Scope.mk n.name n.setter_scope
                  n.children (n.registry ++ [(key, f)])) hnd
              rw [hmod] at hmod'
              cases hmod'
              subst hst1
              simp [hp, hr, hget', containsKey, Scope.registry]
  · intro key g st p root nd hp hr hnd hfree
    simp only [IoCRegisterCommand_execute, hp, hr, hnd, hfree]
    obtain ⟨t2, hmod, -⟩ :=
      modifyNode_spec (fun n => Scope.mk n.name n.setter_scope
        n.children (n.registry ++ [(key, g)])) hnd
    simp [hmod]

theorem IoCRegisterCommand_duplicate_and_shadowing_witness :
    IoCRegisterCommand_execute "k" fW2 stAfterK =
      (stAfterK, some (.duplicateKey "k")) ∧
    (IoCRegisterCommand_execute "k" fW2 stChildK).2 = none :=
  ⟨IoCRegisterCommand_duplicate_and_shadowing.1 "k" fW fW2 (IoC_init []) stAfterK rfl,
   IoCRegisterCommand_duplicate_and_shadowing.2 "k" fW2 stChildK [0] _ _
     rfl rfl rfl rfl⟩

/-- C9: `MacroCommand.execute` runs its sub-commands in order, stops at the
first one whose execute raises, and re-raises a `CommandException` wrapping
the original cause; the state changes of the sub-commands before the failing
one are kept (the failing command's own partial effect included) and the
sub-commands after the failing one are never executed (the result does not
depend on them). -/
theorem MacroCommand_stops_at_first_failure {σ : Type}
    (pre : List (σ → σ × Option PyErr)) (cf : σ → σ × Option PyErr)
    (post : List (σ → σ × Option PyErr)) (st st1 st2 : σ) (e : PyErr)
    (hpre : MacroCommand_execute pre st = (st1, none))
    (hfail : cf st1 = (st2, some e)) :
    MacroCommand_execute (pre ++ cf :: post) st =
      (st2, some (.commandException e)) := by
  induction pre generalizing st with
  | nil =>
    simp only [MacroCommand_execute] at hpre
    obtain ⟨rfl, -⟩ := Prod.mk.injEq .. ▸ hpre
    simp [MacroCommand_execute, hfail]
  | cons c rest ih =>
    simp only [MacroCommand_execute, List.cons_append] at hpre ⊢
    cases hc : c st with
    | mk stc err =>
      rw [hc] at hpre
      cases err with
      | none => exact ih stc hpre
      | some e' => simp at hpre

theorem MacroCommand_stops_at_first_failure_witness :
    MacroCommand_execute [cmdInc, cmdFail, cmdInc] 0 =
      (1, some (.commandException .scopeNotSet)) :=
  MacroCommand_stops_at_first_failure [cmdInc] cmdFail [cmdInc] 0 1 1
    .scopeNotSet rfl rfl

/-- C6 (code evidence): the `current_scope` pointer is NOT per execution unit.
ioc.py stores it as a class attribute of `ThreadData` (the `threading.local`
base class is never instantiated, and `threading.local` isolates only instance
attributes), so there is a single shared pointer: after one execution unit
runs `SetCurrentScopeCommand("child")`, the value read from
`ThreadData.current_scope` by every other execution unit has changed. -/
theorem ThreadData_current_scope_shared_across_units :
    stC6a.current_scope = some [] ∧
    stC6b.current_scope = some [0] ∧
    stC6b.current_scope ≠ stC6a.current_scope :=
  ⟨rfl, rfl, by decide⟩

/-- C7 (counterexample): after entering and exiting a scoped block on the
child scope `c` (previous active scope: the root), the child's `setter_scope`
still holds the reference to the root — it is `some (some [])`, not cleared
to `none` — because `Scope.__exit__` never writes `setter_scope`. -/
theorem Scope_restore_target_not_cleared_after_exit :
    (withScope [0] idBody stEnterW).2 = none ∧
    ((withScope [0] idBody stEnterW).1.root_scope.bind
      (fun r => (getNode r [0]).map Scope.setter_scope)) = some (some []) ∧
    ((withScope [0] idBody stEnterW).1.root_scope.bind
      (fun r => (getNode r [0]).map Scope.setter_scope)) ≠ some none :=
  ⟨rfl, rfl, by decide⟩

/-- C7 (amended): `restore_target` (`setter_scope`) is written at scope
creation and at scoped acquisition and read during release, but release does
not clear it: `Scope.__exit__` leaves the scope tree — and with it every
scope's `setter_scope` — completely unchanged; it only moves the
`current_scope` pointer. -/
theorem Scope_exit_leaves_tree_unchanged (selfPath : List Nat)
    (st : ThreadData) :
    ((Scope_exit selfPath st).1).root_scope = st.root_scope := by
  cases hroot : st.root_scope with
  | none => simp [Scope_exit, hroot]
  | some root =>
    cases hself : getNode root selfPath with
    | none => simp [Scope_exit, hroot, hself]
    | some selfNd =>
      cases hset : selfNd.setter_scope with
      | none => simp [Scope_exit, hroot, hself, hset]
      | some sp =>
        cases hnd : getNode root sp with
        | none => simp [Scope_exit, hroot, hself, hset, hnd]
        | some setNd =>
          have h := SetCurrentScopeCommand_preserves_root setNd.name st
          cases hrun : SetCurrentScopeCommand_execute setNd.name st with
          | mk st2 r =>
            rw [hrun] at h
            have h2 : st2.root_scope = st.root_scope := h
            cases r <;> simp [Scope_exit, hroot, hself, hset, hnd, hrun, h2]

/-- C10: scope equality is name equality — any two scope objects with equal
names compare equal whatever their other fields; consequently the
already-current check of `Scope.__enter__` is a no-op whenever the entered
scope merely shares its name with the current one, and `Scope.__exit__`
(which switches by looking the restore target's name up with BFS) cannot
distinguish two scopes whose restore targets have equal names. -/
theorem Scope_eq_by_name_only :
    (∀ (n1 n2 : String) (s1 s2 : Option (List Nat)) (c1 c2 : List Scope)
       (r1 r2 : List (String × Factory)),
      Scope_eq (Scope.mk n1 s1 c1 r1) (Scope.mk n2 s2 c2 r2) = (n1 == n2)) ∧
    (∀ (st : ThreadData) (selfPath curP : List Nat) (root selfNd curNd : Scope),
      st.current_scope = some curP →
      st.root_scope = some root →
      getNode root selfPath = some selfNd →
      getNode root curP = some curNd →
      Scope_eq selfNd curNd = true →
      Scope_enter selfPath st = (st, .ok selfPath)) ∧
    (∀ (st : ThreadData) (p1 p2 sp1 sp2 : List Nat) (root nd1 nd2 t1 t2 : Scope),
      st.root_scope = some root →
      getNode root p1 = some nd1 →
      getNode root p2 = some nd2 →
      nd1.setter_scope = some sp1 →
      nd2.setter_scope = some sp2 →
      getNode root sp1 = some t1 →
      getNode root sp2 = some t2 →
      t1.name = t2.name →
      Scope_exit p1 st = Scope_exit p2 st) := by
  refine ⟨fun _ _ _ _ _ _ _ _ => rfl, ?_, ?_⟩
  · intro st selfPath curP root selfNd curNd hcur hroot hself hcnd heq
    simp only [Scope_enter, hcur, hroot, hself, hcnd, heq, if_true]
  · intro st p1 p2 sp1 sp2 root nd1 nd2 t1 t2 hroot h1 h2 hs1 hs2 ht1 ht2 hname
    simp only [Scope_exit, hroot, h1, h2, hs1, hs2, ht1, ht2, hname]

theorem Scope_eq_by_name_only_witness :
    Scope_enter [1] stC10 = (stC10, .ok [1]) ∧
    Scope_exit [0] stC10 = Scope_exit [1] stC10 :=
  ⟨Scope_eq_by_name_only.2.1 stC10 [1] [0] _ _ _ rfl rfl rfl rfl rfl,
   Scope_eq_by_name_only.2.2 stC10 [0] [1] [] [] _ _ _ _ _
     rfl rfl rfl rfl rfl rfl rfl rfl⟩

/-- C3 (counterexample): three concrete executions in which exit does NOT
restore the scope that was active immediately before entry, each breaking the
claim through a different mechanism.  First: entering a scoped block on the
scope that is already the active one (the child `c` of stAlready) performs no
switch and records nothing, but exit still switches to the scope's previously
stored restore target (the root), so the block ends at the root, not at `c`.
Second: with unique, unchanged names (`root`, `A`, `B`; `A` active), a block
entered on `B` whose body switches to the root and re-enters `B` overwrites
`B`'s restore target, so exit lands on the root instead of restoring `A`.
Third: with a duplicate name at two depths (the deeper `dup` active), exit of
a block entered on `other` restores by breadth-first lookup of the remembered
scope's name and finds the shallower `dup`, not the scope that was active
before entry. -/
theorem withScope_no_restore_counterexamples :
    ((withScope [0] idBody stAlready).2 = none ∧
     stAlready.current_scope = some [0] ∧
     (withScope [0] idBody stAlready).1.current_scope = some [] ∧
     (withScope [0] idBody stAlready).1.current_scope ≠
       stAlready.current_scope) ∧
    ((withScope [1] bodyReenter stActiveA).2 = none ∧
     stActiveA.current_scope = some [0] ∧
     (withScope [1] bodyReenter stActiveA).1.current_scope = some [] ∧
     (withScope [1] bodyReenter stActiveA).1.current_scope ≠
       stActiveA.current_scope) ∧
    ((withScope [1] idBody stDeepDup).2 = none ∧
     stDeepDup.current_scope = some [1, 0] ∧
     (withScope [1] idBody stDeepDup).1.current_scope = some [0] ∧
     (withScope [1] idBody stDeepDup).1.current_scope ≠
       stDeepDup.current_scope) :=
  ⟨⟨rfl, rfl, rfl, by decide⟩, ⟨rfl, rfl, rfl, by decide⟩,
   ⟨rfl, rfl, rfl, by decide⟩⟩

/-- C3 (amended): for a scope used as a scoped-acquisition handle, exiting the
block restores `current_scope` to the scope that was active immediately before
entry — also when the enclosed block raises (the body's outcome `berr` is
arbitrary) — under the following provisos, each of which the counterexamples
show to be necessary: (i) the handle is not already the active scope at entry
(its name differs from the active scope's name, as compared by
`Scope.__eq__`; hypothesis `hne`, with `hmod`/`hfind1` recording that entry's
bookkeeping and own-name lookup succeed, as they do for any scope reachable
from the root); (ii) the enclosed block leaves the handle's restore target
still referencing the previously active scope (hypotheses
`hself2`/`hsetter2`; a block that re-enters the handle after switching away
overwrites it); and (iii) at exit the breadth-first lookup of the previously
active scope's name finds that same scope (hypotheses `hcnd2`/`hfind2`;
satisfied in particular when scope names are unique and unchanged, and
violated when a shallower duplicate name shadows it).  Under these provisos
scopes entered in order A, B, C are exited C, B, A, leaving A active.  When
the handle is already the active scope, entry is a no-op but exit still
switches to the scope's previously recorded restore target (see the
counterexample). -/
theorem withScope_restores_previous_scope
    (st st2 : ThreadData) (selfPath curP q1 : List Nat)
    (root root1 root2 selfNd curNd selfNd2 curNd2 : Scope)
    (body : ThreadData → ThreadData × Option PyErr) (berr : Option PyErr)
    (hcur : st.current_scope = some curP)
    (hroot : st.root_scope = some root)
    (hself : getNode root selfPath = some selfNd)
    (hcnd : getNode root curP = some curNd)
    (hne : Scope_eq selfNd curNd = false)
    (hmod : modifyNode
      (fun n => Scope.mk n.name (some curP) n.children n.registry)
      root selfPath = some root1)
    (hfind1 : FindScopeCommand_execute selfNd.name
      { root_scope := some root1, current_scope := some curP } = .ok q1)
    (hbody : body { root_scope := some root1, current_scope := some q1 } =
      (st2, berr))
    (hroot2 : st2.root_scope = some root2)
    (hself2 : getNode root2 selfPath = some selfNd2)
    (hsetter2 : selfNd2.setter_scope = some curP)
    (hcnd2 : getNode root2 curP = some curNd2)
    (hfind2 : FindScopeCommand_execute curNd2.name st2 = .ok curP) :
    withScope selfPath body st =
      ({ st2 with current_scope := some curP }, berr) ∧
    ({ st2 with current_scope := some curP }).current_scope =
      st.current_scope := by
  refine ⟨?_, by simp [hcur]⟩
  have henter : Scope_enter selfPath st =
      ({ root_scope := some root1, current_scope := some q1 }, .ok selfPath) := by
    simp only [Scope_enter, hcur, hroot, hself, hcnd, hne, Bool.false_eq_true,
      if_false, hmod, SetCurrentScopeCommand_execute, hfind1]
  have hexit : Scope_exit selfPath st2 =
      ({ st2 with current_scope := some curP }, none) := by
    simp only [Scope_exit, hroot2, hself2, hsetter2, hcnd2,
      SetCurrentScopeCommand_execute, hfind2]
  simp only [withScope, henter, hbody, hexit]

theorem withScope_restores_previous_scope_witness :
    withScope [0] idBody stEnterW =
      ({ stAlready with current_scope := some [] }, none) ∧
    ({ stAlready with current_scope := some [] }).current_scope =
      stEnterW.current_scope :=
  withScope_restores_previous_scope stEnterW stAlready [0] [] [0]
    treeRC treeRC treeRC (Scope.mk "c" (some []) [] []) treeRC
    (Scope.mk "c" (some []) [] []) treeRC idBody none
    rfl rfl rfl rfl rfl rfl rfl rfl rfl rfl rfl rfl rfl

/-- C8: for a parent name that names an existing scope (located with the
`scopes.find` breadth-first semantics, hypothesis `hfind`), `scopes.create`
creates a new child scope whose name is the given one or, when omitted (or
empty), the freshly generated unique token, appends it at the end of the
parent's children list, records the scope active at creation time
(`ThreadData.current_scope`) as the child's restore target, and returns the
new scope. -/
theorem NewScopeCommand_creates_child
    (st : ThreadData) (parent_name : String) (scope_name : Option String)
    (generated_name chosen : String) (pp : List Nat)
    (root root2 parentNd : Scope)
    (hname : chosen = (match scope_name with
      | none => generated_name
      | some s => if s == "" then generated_name else s))
    (hfind : FindScopeCommand_execute parent_name st = .ok pp)
    (hroot : st.root_scope = some root)
    (hparent : getNode root pp = some parentNd)
    (hmod : modifyNode (fun n => Scope.mk n.name n.setter_scope
      (n.children ++ [Scope.mk chosen st.current_scope [] []]) n.registry)
      root pp = some root2) :
    NewScopeCommand_execute parent_name scope_name generated_name st =
      ({ st with root_scope := some root2 },
       .ok (pp ++ [parentNd.children.length])) ∧
    getNode root2 pp = some (Scope.mk parentNd.name parentNd.setter_scope
      (parentNd.children ++ [Scope.mk chosen st.current_scope [] []])
      parentNd.registry) ∧
    getNode root2 (pp ++ [parentNd.children.length]) =
      some (Scope.mk chosen st.current_scope [] []) := by
  obtain ⟨t2, hmod', hget'⟩ := modifyNode_spec
    (fun n => Scope.mk n.name n.setter_scope
      (n.children ++ [Scope.mk chosen st.current_scope [] []]) n.registry)
    hparent
  rw [hmod] at hmod'
  cases hmod'
  refine ⟨?_, hget', ?_⟩
  · simp only [NewScopeCommand_execute, ← hname, hfind, hroot, hparent, hmod]
  · rw [getNode_append, hget']
    simp [getNode, nth_append_length]

theorem NewScopeCommand_creates_child_witness :
    NewScopeCommand_execute "root" none "tok" (IoC_init []) =
      ({ IoC_init [] with root_scope := some (Scope.mk "root" none
          [Scope.mk "tok" (some []) [] []] []) }, .ok [0]) ∧
    getNode (Scope.mk "root" none [Scope.mk "tok" (some []) [] []] []) [] =
      some (Scope.mk "root" none [Scope.mk "tok" (some []) [] []] []) ∧
    getNode (Scope.mk "root" none [Scope.mk "tok" (some []) [] []] []) [0] =
      some (Scope.mk "tok" (some []) [] []) :=
  NewScopeCommand_creates_child (IoC_init []) "root" none "tok" "tok" []
    (Scope.mk "root" none [] [])
    (Scope.mk "root" none [Scope.mk "tok" (some []) [] []] [])
    (Scope.mk "root" none [] [])
    rfl rfl rfl rfl rfl

theorem scopeSize_pos (t : Scope) : 0 < scopeSize t := by
  cases t with
  | mk n s cs r => simp [scopeSize]

theorem queueSize_append (a b : List (List Nat × Scope)) :
    queueSize (a ++ b) = queueSize a + queueSize b := by
  induction a with
  | nil => simp [queueSize]
  | cons x rest ih =>
    cases x with
    | mk p t => simp [queueSize, ih]; omega

theorem queueSize_childEntries (p : List Nat) (i : Nat) (cs : List Scope) :
    queueSize (childEntries p i cs) = forestSize cs := by
  induction cs generalizing i with
  | nil => rfl
  | cons c cs ih => simp [childEntries, queueSize, forestSize, ih]

theorem lexLt_trans {a b c : List Nat} (hab : lexLt a b = true)
    (hbc : lexLt b c = true) : lexLt a c = true := by
  induction a generalizing b c with
  | nil =>
    cases b with
    | nil => simp [lexLt] at hab
    | cons y ys =>
      cases c with
      | nil => simp [lexLt] at hbc
      | cons z zs => rfl
  | cons x xs ih =>
    cases b with
    | nil => simp [lexLt] at hab
    | cons y ys =>
      cases c with
      | nil => simp [lexLt] at hbc
      | cons z zs =>
        simp only [lexLt, Bool.or_eq_true, Bool.and_eq_true, Nat.blt_eq,
          beq_iff_eq] at hab hbc ⊢
        rcases hab with h1 | ⟨rfl, h1⟩
        · rcases hbc with h2 | ⟨rfl, h2⟩
          · exact Or.inl (Nat.lt_trans h1 h2)
          · exact Or.inl h1
        · rcases hbc with h2 | ⟨rfl, h2⟩
          · exact Or.inl h2
          · exact Or.inr ⟨rfl, ih h1 h2⟩

theorem lexLt_append {p q : List Nat} (h : lexLt p q = true)
    (hlen : p.length = q.length) (c c' : Nat) :
    lexLt (p ++ [c]) (q ++ [c']) = true := by
  induction p generalizing q with
  | nil =>
    cases q with
    | nil => simp [lexLt] at h
    | cons y ys => simp at hlen
  | cons x xs ih =>
    cases q with
    | nil => simp at hlen
    | cons y ys =>
      simp only [lexLt, Bool.or_eq_true, Bool.and_eq_true, Nat.blt_eq,
        beq_iff_eq] at h ⊢
      rcases h with h1 | ⟨rfl, h1⟩
      · exact Or.inl h1
      · exact Or.inr ⟨rfl, ih h1 (by simpa using hlen)⟩

theorem lexLt_append_lt {i j : Nat} (h : i < j) (p : List Nat) :
    lexLt (p ++ [i]) (p ++ [j]) = true := by
  induction p with
  | nil => simp [lexLt, Nat.blt_eq, h]
  | cons x xs ih => simp [lexLt, ih]

theorem slexLt_of_length_lt {p q : List Nat} (h : p.length < q.length) :
    slexLt p q = true := by
  simp [slexLt, Nat.blt_eq, h]

theorem slexLt_trans {a b c : List Nat} (hab : slexLt a b = true)
    (hbc : slexLt b c = true) : slexLt a c = true := by
  simp only [slexLt, Bool.or_eq_true, Bool.and_eq_true, Nat.blt_eq,
    beq_iff_eq] at hab hbc ⊢
  rcases hab with h1 | ⟨e1, h1⟩
  · rcases hbc with h2 | ⟨e2, h2⟩
    · exact Or.inl (Nat.lt_trans h1 h2)
    · exact Or.inl (e2 ▸ h1)
  · rcases hbc with h2 | ⟨e2, h2⟩
    · exact Or.inl (e1 ▸ h2)
    · exact Or.inr ⟨e1.trans e2, lexLt_trans h1 h2⟩

theorem slexLt_le_trans {a b c : List Nat} (hab : slexLt a b = true)
    (hbc : slexLe b c = true) : slexLt a c = true := by
  simp only [slexLe, Bool.or_eq_true, beq_iff_eq] at hbc
  rcases hbc with h | rfl
  · exact slexLt_trans hab h
  · exact hab

theorem slexLe_append_right (p s : List Nat) : slexLe p (p ++ s) = true := by
  cases s with
  | nil => simp [slexLe]
  | cons j s' =>
    simp only [slexLe, Bool.or_eq_true]
    exact Or.inl (slexLt_of_length_lt (by simp))

theorem slexLt_extend {p q : List Nat} (h : slexLt p q = true) (i j : Nat) :
    slexLt (p ++ [i]) (q ++ [j]) = true := by
  simp only [slexLt, Bool.or_eq_true, Bool.and_eq_true, Nat.blt_eq,
    beq_iff_eq] at h
  rcases h with h1 | ⟨e1, h1⟩
  · exact slexLt_of_length_lt (by simp; omega)
  · simp only [slexLt, Bool.or_eq_true, Bool.and_eq_true, Nat.blt_eq,
      beq_iff_eq]
    exact Or.inr ⟨by simp [e1], lexLt_append h1 e1 i j⟩

theorem slexLt_snoc_lt {i j : Nat} (h : i < j) (p : List Nat) :
    slexLt (p ++ [i]) (p ++ [j]) = true := by
  simp only [slexLt, Bool.or_eq_true, Bool.and_eq_true, Nat.blt_eq,
    beq_iff_eq]
  exact Or.inr ⟨by simp, lexLt_append_lt h p⟩

theorem mem_childEntries (p : List Nat) :
    ∀ (cs : List Scope) (i : Nat) (x : List Nat × Scope),
      x ∈ childEntries p i cs →
      ∃ k, nth cs k = some x.2 ∧ x.1 = p ++ [i + k] := by
  intro cs
  induction cs with
  | nil => intro i x h; simp [childEntries] at h
  | cons c cs ih =>
    intro i x h
    simp only [childEntries, List.mem_cons] at h
    rcases h with rfl | h
    · exact ⟨0, rfl, by simp⟩
    · obtain ⟨k, hk, hx⟩ := ih (i + 1) x h
      refine ⟨k + 1, by simpa [nth] using hk, ?_⟩
      rw [hx, show i + 1 + k = i + (k + 1) from by omega]

theorem childEntries_mem_of_nth (p : List Nat) :
    ∀ (cs : List Scope) (i k : Nat) (c : Scope), nth cs k = some c →
      (p ++ [i + k], c) ∈ childEntries p i cs := by
  intro cs
  induction cs with
  | nil => intro i k c h; simp [nth] at h
  | cons d cs ih =>
    intro i k c h
    cases k with
    | zero =>
      simp only [nth] at h
      cases h
      simp [childEntries]
    | succ k =>
      simp only [nth] at h
      have h2 := ih (i + 1) k c h
      simp only [childEntries, List.mem_cons]
      right
      rw [show i + (k + 1) = i + 1 + k from by omega]
      exact h2

theorem getNode_child {root t c : Scope} {p : List Nat} {k : Nat}
    (hp : getNode root p = some t) (hc : nth t.children k = some c) :
    getNode root (p ++ [k]) = some c := by
  rw [getNode_append, hp]
  cases t with
  | mk n s cs r =>
    simp only [Scope.children] at hc
    simp [getNode, hc]

theorem head_descendant_split {root t nd' : Scope} {p s : List Nat}
    (hcorr : getNode root p = some t)
    (hget : getNode root (p ++ s) = some nd') :
    (s = [] ∧ nd' = t) ∨
    (∃ j s' c, s = j :: s' ∧ nth t.children j = some c ∧
      getNode root ((p ++ [j]) ++ s') = some nd') := by
  cases s with
  | nil =>
    left
    refine ⟨rfl, ?_⟩
    rw [List.append_nil, hcorr] at hget
    exact (Option.some.inj hget).symm
  | cons j s' =>
    right
    rw [List.append_cons] at hget
    have hsplit := hget
    rw [getNode_append] at hsplit
    cases hcj : getNode root (p ++ [j]) with
    | none => rw [hcj] at hsplit; simp at hsplit
    | some c =>
      refine ⟨j, s', c, rfl, ?_, hget⟩
      rw [getNode_append, hcorr] at hcj
      cases t with
      | mk n sc cs r =>
        simp only [Option.some_bind] at hcj
        simp only [Scope.children]
        simp only [getNode] at hcj
        cases hn : nth cs j with
        | none => rw [hn] at hcj; simp at hcj
        | some c3 =>
          rw [hn] at hcj
          simpa [getNode] using hcj

theorem nth_mem_names :
    ∀ (cs : List Scope) (i : Nat) (c : Scope), nth cs i = some c →
      ∀ x ∈ scopeNames c, x ∈ forestNames cs := by
  intro cs
  induction cs with
  | nil => intro i c h; simp [nth] at h
  | cons d cs ih =>
    intro i c h x hx
    cases i with
    | zero =>
      simp only [nth] at h
      cases h
      simp [forestNames, hx]
    | succ i =>
      simp only [nth] at h
      simp [forestNames, ih i c h x hx]

theorem getNode_name_mem {t nd : Scope} {q : List Nat}
    (h : getNode t q = some nd) : nd.name ∈ scopeNames t := by
  induction q generalizing t with
  | nil =>
    have ht : t = nd := by simpa [getNode] using h
    subst ht
    cases t with
    | mk n s cs r => simp [scopeNames, Scope.name]
  | cons i q ih =>
    cases t with
    | mk n s cs r =>
      simp only [getNode] at h
      cases hn : nth cs i with
      | none => rw [hn] at h; simp at h
      | some c =>
        rw [hn] at h
        simp only [scopeNames, List.mem_cons]
        exact Or.inr (nth_mem_names cs i c hn _ (ih h))

theorem scopeSize_children (t : Scope) :
    scopeSize t = 1 + forestSize t.children := by
  cases t with
  | mk n s cs r => simp [scopeSize, Scope.children]

theorem pairwise_childEntries (p : List Nat) :
    ∀ (cs : List Scope) (i : Nat),
      List.Pairwise (fun x y => slexLt x.1 y.1 = true ∧
        ∀ c, slexLt y.1 (x.1 ++ [c]) = true) (childEntries p i cs) := by
  intro cs
  induction cs with
  | nil => intro i; simp [childEntries]
  | cons c cs ih =>
    intro i
    simp only [childEntries]
    rw [List.pairwise_cons]
    refine ⟨?_, ih (i + 1)⟩
    intro y hy
    obtain ⟨k, hk, hyp⟩ := mem_childEntries p cs (i + 1) y hy
    constructor
    · rw [hyp]
      exact slexLt_snoc_lt (by omega) p
    · intro c'
      rw [hyp]
      refine slexLt_of_length_lt ?_
      simp

theorem bfs_inv_step {p : List Nat} {t : Scope}
    {rest : List (List Nat × Scope)}
    (h : List.Pairwise (fun x y => slexLt x.1 y.1 = true ∧
      ∀ c, slexLt y.1 (x.1 ++ [c]) = true) ((p, t) :: rest)) :
    List.Pairwise (fun x y => slexLt x.1 y.1 = true ∧
      ∀ c, slexLt y.1 (x.1 ++ [c]) = true)
      (rest ++ childEntries p 0 t.children) := by
  rw [List.pairwise_cons] at h
  obtain ⟨hhead, hrest⟩ := h
  rw [List.pairwise_append]
  refine ⟨hrest, pairwise_childEntries p t.children 0, ?_⟩
  intro x hx y hy
  have hxrel := hhead x hx
  obtain ⟨k, hk, hyp⟩ := mem_childEntries p t.children 0 y hy
  constructor
  · rw [hyp]
    exact hxrel.2 (0 + k)
  · intro c'
    rw [hyp]
    exact slexLt_extend hxrel.1 (0 + k) c'

theorem bfsAux_spec (target : String) (root : Scope) :
    ∀ (fuel : Nat) (Q : List (List Nat × Scope)),
      queueSize Q ≤ fuel →
      (∀ x ∈ Q, getNode root x.1 = some x.2) →
      List.Pairwise (fun x y => slexLt x.1 y.1 = true ∧
        ∀ c, slexLt y.1 (x.1 ++ [c]) = true) Q →
      ((∀ p, bfsAux target fuel Q = some p →
        (∃ nd, getNode root p = some nd ∧ nd.name = target) ∧
        (∀ x ∈ Q, ∀ s nd', getNode root (x.1 ++ s) = some nd' →
          nd'.name = target → slexLe p (x.1 ++ s) = true)) ∧
      (bfsAux target fuel Q = none →
        ∀ x ∈ Q, ∀ s nd', getNode root (x.1 ++ s) = some nd' →
          nd'.name ≠ target)) := by
  intro fuel
  induction fuel with
  | zero =>
    intro Q hfuel hcorr hinv
    cases Q with
    | nil =>
      exact ⟨fun p hp => by simp [bfsAux] at hp,
        fun _ => by intro x hx; simp at hx⟩
    | cons hd rest =>
      exfalso
      cases hd with
      | mk p t =>
        have := scopeSize_pos t
        simp only [queueSize] at hfuel
        omega
  | succ fuel ih =>
    intro Q hfuel hcorr hinv
    cases Q with
    | nil =>
      exact ⟨fun p hp => by simp [bfsAux] at hp,
        fun _ => by intro x hx; simp at hx⟩
    | cons hd rest =>
      cases hd with
      | mk p t =>
        have hcorrHead : getNode root p = some t := hcorr (p, t) (by simp)
        by_cases ht : (t.name == target) = true
        · -- the head matches: BFS returns its path
          have hbfs : bfsAux target (fuel + 1) ((p, t) :: rest) = some p := by
            simp [bfsAux, ht]
          constructor
          · intro p' hp'
            rw [hbfs] at hp'
            have hpp : p = p' := Option.some.inj hp'
            subst hpp
            refine ⟨⟨t, hcorrHead, eq_of_beq ht⟩, ?_⟩
            intro x hx s nd' hget hname
            rcases List.mem_cons.mp hx with rfl | hx
            · exact slexLe_append_right p s
            · have hrel := (List.pairwise_cons.mp hinv).1 x hx
              have hlt := slexLt_le_trans hrel.1 (slexLe_append_right x.1 s)
              simp [slexLe, hlt]
          · intro hnone
            rw [hbfs] at hnone
            simp at hnone
        · -- the head does not match: BFS continues on the extended queue
          have ht' : (t.name == target) = false := by
            simpa using ht
          have hbfs : bfsAux target (fuel + 1) ((p, t) :: rest) =
              bfsAux target fuel (rest ++ childEntries p 0 t.children) := by
            simp [bfsAux, ht']
          have hfuel' : queueSize (rest ++ childEntries p 0 t.children) ≤ fuel := by
            rw [queueSize_append, queueSize_childEntries]
            have := scopeSize_children t
            simp only [queueSize] at hfuel
            omega
          have hcorr' : ∀ x ∈ rest ++ childEntries p 0 t.children,
              getNode root x.1 = some x.2 := by
            intro x hx
            rcases List.mem_append.mp hx with hx | hx
            · exact hcorr x (List.mem_cons.mpr (Or.inr hx))
            · obtain ⟨k, hk, hyp⟩ := mem_childEntries p t.children 0 x hx
              rw [hyp]
              simpa using getNode_child hcorrHead hk
          have hinv' := bfs_inv_step hinv
          have IH := ih (rest ++ childEntries p 0 t.children) hfuel' hcorr' hinv'
          have hthead : t.name ≠ target := by
            intro hcontra
            rw [hcontra] at ht'
            simp at ht'
          constructor
          · intro p' hp'
            rw [hbfs] at hp'
            obtain ⟨hex, hmin⟩ := IH.1 p' hp'
            refine ⟨hex, ?_⟩
            intro x hx s nd' hget hname
            rcases List.mem_cons.mp hx with rfl | hx
            · -- descendant of the popped head
              rcases head_descendant_split hcorrHead hget with
                ⟨rfl, rfl⟩ | ⟨j, s', c, rfl, hnth, hget'⟩
              · exact absurd hname hthead
              · have hmem : ((p ++ [0 + j], c) : List Nat × Scope) ∈
                    rest ++ childEntries p 0 t.children :=
                  List.mem_append.mpr (Or.inr
                    (childEntries_mem_of_nth p t.children 0 j c hnth))
                have := hmin (p ++ [0 + j], c) hmem s' nd'
                  (by simpa using hget') hname
                rw [List.append_cons]
                simpa using this
            · exact hmin x (List.mem_append.mpr (Or.inl hx)) s nd' hget hname
          · intro hnone
            rw [hbfs] at hnone
            have IHb := IH.2 hnone
            intro x hx s nd' hget hname
            rcases List.mem_cons.mp hx with rfl | hx
            · rcases head_descendant_split hcorrHead hget with
                ⟨rfl, rfl⟩ | ⟨j, s', c, rfl, hnth, hget'⟩
              · exact hthead hname
              · have hmem : ((p ++ [0 + j], c) : List Nat × Scope) ∈
                    rest ++ childEntries p 0 t.children :=
                  List.mem_append.mpr (Or.inr
                    (childEntries_mem_of_nth p t.children 0 j c hnth))
                exact IHb (p ++ [0 + j], c) hmem s' nd'
                  (by simpa using hget') hname
            · exact IHb x (List.mem_append.mpr (Or.inl hx)) s nd' hget hname

/-- C5: `scopes.find` performs a breadth-first search from the execution
context's root scope, expanding children in insertion order and comparing
names: a returned scope bears the target name and its path is minimal in the
shortlex order (shallowest depth first, leftmost among equal depths) among all
scopes bearing that name; when no scope in the whole tree bears the name it
fails with `ScopeNotFoundException`. -/
theorem FindScopeCommand_bfs_shallowest_leftmost
    (target : String) (st : ThreadData) (root : Scope)
    (hroot : st.root_scope = some root) :
    (∀ p, FindScopeCommand_execute target st = .ok p →
      (∃ nd, getNode root p = some nd ∧ nd.name = target) ∧
      (∀ q nd', getNode root q = some nd' → nd'.name = target →
        slexLe p q = true)) ∧
    ((∀ q nd', getNode root q = some nd' → nd'.name ≠ target) →
      FindScopeCommand_execute target st = .error .scopeNotFound) := by
  have hQcorr : ∀ x ∈ [(([] : List Nat), root)], getNode root x.1 = some x.2 := by
    intro x hx
    simp only [List.mem_singleton] at hx
    subst hx
    simp [getNode]
  have hQsize : queueSize [(([] : List Nat), root)] ≤ scopeSize root := by
    simp [queueSize]
  have hQinv : List.Pairwise (fun x y => slexLt x.1 y.1 = true ∧
      ∀ c, slexLt y.1 (x.1 ++ [c]) = true) [(([] : List Nat), root)] := by
    simp
  have H := bfsAux_spec target root (scopeSize root) [([], root)]
    hQsize hQcorr hQinv
  constructor
  · intro p hp
    simp only [FindScopeCommand_execute, hroot] at hp
    cases hb : bfsAux target (scopeSize root) [([], root)] with
    | none => rw [hb] at hp; simp at hp
    | some p' =>
      rw [hb] at hp
      have hpp : p' = p := by simpa using hp
      subst hpp
      obtain ⟨hex, hmin⟩ := H.1 p' hb
      refine ⟨hex, ?_⟩
      intro q nd' hq hname
      have := hmin ([], root) (by simp) q nd' (by simpa using hq) hname
      simpa using this
  · intro hnomatch
    cases hb : bfsAux target (scopeSize root) [([], root)] with
    | some p =>
      obtain ⟨⟨nd, hget, hname⟩, -⟩ := H.1 p hb
      exact absurd hname (hnomatch p nd hget)
    | none => simp [FindScopeCommand_execute, hroot, hb]

theorem FindScopeCommand_bfs_shallowest_leftmost_witness :
    FindScopeCommand_execute "x" stFindW = .ok [1] ∧
    slexLe [1] [2] = true ∧
    slexLe [1] [0, 0] = true ∧
    FindScopeCommand_execute "zzz" stFindW = .error .scopeNotFound :=
  ⟨rfl,
   ((FindScopeCommand_bfs_shallowest_leftmost "x" stFindW tC5 rfl).1 [1] rfl).2
     [2] (Scope.mk "x" none [] []) rfl rfl,
   ((FindScopeCommand_bfs_shallowest_leftmost "x" stFindW tC5 rfl).1 [1] rfl).2
     [0, 0] (Scope.mk "x" none [] []) rfl rfl,
   (FindScopeCommand_bfs_shallowest_leftmost "zzz" stFindW tC5 rfl).2
     (fun _ nd' h hn => absurd (hn ▸ getNode_name_mem h) (by decide))⟩
